import Mathlib

/-!
Verification of the ABC-SMC (adaptive PMC) sampler `ABCAdaptivePMC`
(`pints/_abc/_abc_adaptive_pmc.py`) and of the parameter transformations
(`pints/_transformation.py`).

Discrepancies, weights and particle coordinates are modelled over `ℚ`
(exact arithmetic standing in for floating point).  The two external
quantities the sampler consumes from its collaborators — the prior and
the Gaussian perturbation kernel — are fields of a `Model` record:
`logPriorFinite` models the test `log_prior(theta) != -inf`,
`expLogPrior` models `np.exp(log_prior(x))`, and `kernelPdf` models
`multivariate_normal(mean, cov).pdf(point)`.  The sampler itself is a
record of the instance attributes of the Python class, and `ask`/`tell`
are functions on that record.  Randomness (prior samples, the uniform
draw in `_gen_prev_theta`, the multivariate-normal perturbation) enters
through explicit oracle arguments.
-/

/-- Vector addition, `numpy` elementwise `+` on equal-length vectors. -/
def vAdd (a b : List ℚ) : List ℚ := List.zipWith (· + ·) a b

/-- Vector subtraction, `numpy` elementwise `-` on equal-length vectors. -/
def vSub (a b : List ℚ) : List ℚ := List.zipWith (· - ·) a b

/-- Scalar–vector product. -/
def sMulV (c : ℚ) (v : List ℚ) : List ℚ := v.map (fun x => c * x)

/-- Matrix addition (elementwise on equal shapes). -/
def matAdd (a b : List (List ℚ)) : List (List ℚ) := List.zipWith vAdd a b

/-- Scalar–matrix product. -/
def sMulM (c : ℚ) (a : List (List ℚ)) : List (List ℚ) := a.map (fun r => r.map (fun x => c * x))

/-- Source `np.array([d]) * np.transpose(np.array([d]))`: the outer product of `d`
with itself, entry `(j, k)` being `d j * d k`. -/
def outerSq (d : List ℚ) : List (List ℚ) := d.map (fun x => d.map (fun y => x * y))

/-- Source `np.zeros(n)`. -/
def zerosV (n : ℕ) : List ℚ := List.replicate n 0

/-- An `n × n` zero matrix (the `None`-seeded accumulators are folded from it
once the population is non-empty). -/
def zerosM (n : ℕ) : List (List ℚ) := List.replicate n (zerosV n)

/-- The Python pattern `[l[c] for c, x in enumerate(mask) if x]`: select the
entries of `l` at the positions where `mask` holds. -/
def maskSelect {α : Type} (mask : List Bool) (l : List α) : List α :=
  (mask.zip l).filterMap (fun p => if p.1 then some p.2 else none)

/-- Source `_calc_Q`: sort the errors ascending and return the entry at index
`N_l - 1` (the `N_l`-th order statistic). -/
def calcQ (nl : ℕ) (errors : List ℚ) : ℚ :=
  (errors.insertionSort (· ≤ ·)).getD (nl - 1) 0

/-- The externally supplied probabilistic collaborators of the sampler. -/
structure Model where
  dim : ℕ
  /-- Whether `self._log_prior(theta) != np.NINF`. -/
  logPriorFinite : List ℚ → Bool
  /-- Source `np.exp(self._log_prior(x))`. -/
  expLogPrior : List ℚ → ℚ
  /-- Source `multivariate_normal(mean, cov).pdf(point)`, arguments `cov mean point`. -/
  kernelPdf : List (List ℚ) → List ℚ → List ℚ → ℚ

/-- The instance attributes of `ABCAdaptivePMC`.  The attributes `_epsilon`,
`_theta`, `_fxs`, `_var` and `_n_weights` are unset in `__init__` and only
created by the first `tell`; they carry harmless defaults here and are never
read before being written along valid call sequences. -/
structure PmcState where
  theta : List (List ℚ) := []
  fxs : List ℚ := []
  weights : List ℚ := []
  n_weights : List ℚ := []
  epsilon : ℚ := 0
  var : List (List ℚ) := []
  t : ℕ := 0
  nr_samples : ℕ := 100
  N_l : ℕ := 0
  p_acc_min : ℚ := 1 / 2
  xs : List (List ℚ) := []
  ready_for_tell : Bool := false
  deriving DecidableEq

/-- Source `__init__` followed by `set_N_l` and `set_p_acc_min`. -/
def initState (nl : ℕ) (pAccMin : ℚ) : PmcState :=
  { N_l := nl, p_acc_min := pAccMin }

/-- Normalised weights: the loop `ws[i] = ws[i] / w_sum`.  The source only
normalises the first `len(self._theta)` entries, and only those indices are
ever read afterwards, so mapping over the whole list is equivalent. -/
def normWeights (weights : List ℚ) : List ℚ := weights.map (fun w => w / weights.sum)

/-- The weighted mean `w_mean` of `_emp_var` (the final `w_mean /= w_sum`
divides by the reassigned `w_sum = 1` and is a no-op). -/
def wMean (dim : ℕ) (wsN : List ℚ) (theta : List (List ℚ)) : List ℚ :=
  (List.range theta.length).foldl
    (fun m i => vAdd m (sMulV (wsN.getD i 0) (theta.getD i []))) (zerosV dim)

/-- Source `w_sq_sum`: the sum of the squared normalised weights over the population
indices. -/
def normSqSum (wsN : List ℚ) (theta : List (List ℚ)) : ℚ :=
  ((List.range theta.length).map (fun i => wsN.getD i 0 ^ 2)).sum

/-- Source `n_V`: the non-corrected weighted variance estimate. -/
def nVmat (dim : ℕ) (wsN : List ℚ) (theta : List (List ℚ)) : List (List ℚ) :=
  let mean := wMean dim wsN theta
  (List.range theta.length).foldl
    (fun a i => matAdd a (sMulM (wsN.getD i 0) (outerSq (vSub (theta.getD i []) mean))))
    (zerosM dim)

/-- Source `_emp_var`: the weighted empirical variance of the population.  After the
normalisation loop the source reassigns `w_sum = 1`, so the correction branch
compares `1 ** 2` with `w_sq_sum` and the fallback scales by `1 / 1e-20`. -/
def empVar (dim : ℕ) (weights : List ℚ) (theta : List (List ℚ)) : List (List ℚ) :=
  let wsN := normWeights weights
  let wSqSum := normSqSum wsN theta
  let nV := nVmat dim wsN theta
  if (1 : ℚ) ^ 2 = wSqSum then sMulM (1 / (1 / 10 ^ 20)) nV
  else sMulM (1 / ((1 : ℚ) ^ 2 - wSqSum)) nV

/-- Source `_emp_var` instrumented for definedness: returns `none` if the population
is empty (the source would multiply the `None`-valued `n_V`) or if any of the
divisions (weight normalisation, the correction factor of the branch taken)
has denominator zero. -/
def empVarChecked (dim : ℕ) (weights : List ℚ) (theta : List (List ℚ)) :
    Option (List (List ℚ)) :=
  if theta = [] then none
  else if weights.sum = 0 then none
  else
    let wsN := normWeights weights
    let wSqSum := normSqSum wsN theta
    let nV := nVmat dim wsN theta
    if (1 : ℚ) ^ 2 = wSqSum then
      if (1 : ℚ) / 10 ^ 20 = 0 then none else some (sMulM (1 / (1 / 10 ^ 20)) nV)
    else
      if (1 : ℚ) ^ 2 - wSqSum = 0 then none else some (sMulM (1 / ((1 : ℚ) ^ 2 - wSqSum)) nV)

/-- Source `_compute_weights(i)`: the importance weight of the `i`-th new candidate.
Both the normaliser `w_sum` and the kernel-density sum range over
`range(self._N_l)`, not over the whole previous population. -/
def computeWeights (m : Model) (s : PmcState) (i : ℕ) : ℚ :=
  let wSum := ((List.range s.N_l).map (fun j => s.weights.getD j 0)).sum
  let normTerm := ((List.range s.N_l).map (fun j =>
    s.weights.getD j 0 / wSum * m.kernelPdf s.var (s.xs.getD i []) (s.theta.getD j []))).sum
  m.expLogPrior (s.xs.getD i []) / normTerm

/-- The importance-weight formula as the specification states it: the
normaliser and the weighted kernel density range over the ENTIRE previous
population, `weight_j / sum(all old weights)` against every old particle. -/
def computeWeightsSpec (m : Model) (s : PmcState) (i : ℕ) : ℚ :=
  let wSum := s.weights.sum
  let normTerm := ((List.range s.weights.length).map (fun j =>
    s.weights.getD j 0 / wSum * m.kernelPdf s.var (s.xs.getD i []) (s.theta.getD j []))).sum
  m.expLogPrior (s.xs.getD i []) / normTerm

/-- The argument of `tell`: the branch `isinstance(fx, list)` distinguishes a
Python list of discrepancies from any other value (e.g. a numpy array). -/
inductive TellInput where
  | list : List ℚ → TellInput
  | nonList : TellInput
  deriving DecidableEq

/-- The `t == 0` branch of `tell(fx)` (`fx` a list): set epsilon to the
`N_l`-th order statistic of `fx`, keep the particles with discrepancy
`≤ epsilon`, give them uniform weights, recompute the proposal covariance
as twice the weighted empirical variance, and advance `t`. -/
def tellAtZero (m : Model) (s : PmcState) (fx : List ℚ) :
    Except String (Option (List (List ℚ))) × PmcState :=
  let eps := calcQ s.N_l fx
  let accepted := fx.map (fun a => decide (a ≤ eps))
  let theta1 := maskSelect accepted s.xs
  let fxs1 := maskSelect accepted fx
  let weights1 := List.replicate theta1.length ((1 : ℚ) / theta1.length)
  (.ok none,
    { s with ready_for_tell := false, epsilon := eps, theta := theta1, fxs := fxs1,
             weights := weights1, var := sMulM 2 (empVar m.dim weights1 theta1),
             t := s.t + 1 })

/-- The `t > 0` branch of `tell(fx)` (`fx` a list).  New importance weights
are computed against the previous population, the new discrepancies are
appended to `self._fxs`, and either (acceptance probability `≤ p_acc_min`)
the whole batch is appended to the population and returned as the final
population, or the threshold is lowered to the `N_l`-th order statistic of
the combined discrepancies and old and new particles are filtered by it.
`o_accepted` is `fxs1.map (· ≤ eps)`; the source comprehensions keep only
indices `c < s_L = len(self._fxs)`, i.e. the mask restricted to the old
prefix of `fxs1`, which is exactly `s.fxs`.  Out-of-range list indexing
(a Python `IndexError`) is modelled by `getD`/`zip` truncation; the states
reached along valid call sequences keep every index in range. -/
def tellAtPos (m : Model) (s : PmcState) (fx : List ℚ) :
    Except String (Option (List (List ℚ))) × PmcState :=
  let k := s.nr_samples - s.N_l
  let nW := (List.range k).map (fun i => computeWeights m s i)
  let fxs1 := s.fxs ++ (List.range k).map (fun i => fx.getD i 0)
  let pAcc := 1 / (k : ℚ) * ((fx.map (fun a => decide (a ≤ s.epsilon))).count true : ℚ)
  if pAcc ≤ s.p_acc_min then
    (.ok (some (s.theta ++ s.xs)),
      { s with ready_for_tell := false, n_weights := nW, fxs := fxs1,
               theta := s.theta ++ s.xs })
  else
    let eps := calcQ s.N_l fxs1
    let oldMask := s.fxs.map (fun a => decide (a ≤ eps))
    let accepted := fx.map (fun a => decide (a ≤ eps))
    let theta1 := maskSelect oldMask s.theta ++ maskSelect accepted s.xs
    let fxs2 := maskSelect oldMask s.fxs ++ maskSelect accepted fx
    let weights1 := maskSelect oldMask s.weights ++ maskSelect accepted nW
    (.ok none,
      { s with ready_for_tell := false, n_weights := nW, epsilon := eps, theta := theta1,
               fxs := fxs2, weights := weights1,
               var := sMulM 2 (empVar m.dim weights1 theta1), t := s.t + 1 })

/-- Source `tell(fx)`.  Returns the value `tell` returns (`.error` for the raised
`RuntimeError`, otherwise `.ok` of the optional final population) together
with the state of the object after the call.  `self._ready_for_tell` is
cleared before the `isinstance` test, so a non-list `fx` silently skips the
whole update. -/
def tellF (m : Model) (s : PmcState) (input : TellInput) :
    Except String (Option (List (List ℚ))) × PmcState :=
  if s.ready_for_tell = false then (.error "tell called before ask.", s)
  else
    match input with
    | .nonList => (.ok none, { s with ready_for_tell := false })
    | .list fx => if s.t = 0 then tellAtZero m s fx else tellAtPos m s fx

/-- The `while i < len(weights) and sum <= r` scan of `_gen_prev_theta`,
structurally over the weight list; returns the final value of `i`. -/
def genScanGo (ws : List ℚ) (r acc : ℚ) (i : ℕ) : ℕ :=
  match ws with
  | [] => i
  | w :: rest => if acc ≤ r then genScanGo rest r (acc + w) (i + 1) else i

/-- Source `_gen_prev_theta` given the uniform draw `r`: weighted selection of a
parent particle by cumulative scan.  (For `i = 0`, impossible when `r ≥ 0`
and the weights are non-empty, Python would index `theta[-1]`.) -/
def genPrevTheta (weights : List ℚ) (theta : List (List ℚ)) (r : ℚ) : List ℚ :=
  theta.getD (genScanGo weights r 0 0 - 1) []

/-- The candidate produced at retry attempt `a` inside `ask` (for `t > 0`):
a parent chosen by `_gen_prev_theta` from the uniform draw `(draws a).1`,
perturbed by the zero-mean multivariate-normal draw `(draws a).2`
(`np.random.multivariate_normal(theta_s, var) = theta_s + N(0, var)`). -/
def candAt (weights : List ℚ) (theta : List (List ℚ)) (draws : ℕ → ℚ × List ℚ)
    (a : ℕ) : List ℚ :=
  vAdd (genPrevTheta weights theta (draws a).1) (draws a).2

/-- The `while not done` retry loop of one slot of `ask` at `t > 0`,
instrumented with fuel: `none` means the loop has not terminated within
`fuel` attempts.  The source increments a counter `cnt` per attempt but
never compares it with anything. -/
def askSlotLoop (m : Model) (weights : List ℚ) (theta : List (List ℚ))
    (draws : ℕ → ℚ × List ℚ) : ℕ → ℕ → Option (List ℚ)
  | _, 0 => none
  | a, fuel + 1 =>
    let cand := candAt weights theta draws a
    if m.logPriorFinite cand then some cand
    else askSlotLoop m weights theta draws (a + 1) fuel

/-- Sequence a list of optional results; `none` if any entry is `none`. -/
def seqOpt {α : Type} : List (Option α) → Option (List α)
  | [] => some []
  | none :: _ => none
  | some a :: rest => (seqOpt rest).map (fun l => a :: l)

/-- The candidate-generation phase of `ask` at `t > 0`: one retry loop per
slot `i in range(self._N_l + 1, n_samples + 1)`, i.e. `n - N_l` slots. -/
def askGen (m : Model) (s : PmcState) (n : ℕ) (draws : ℕ → ℕ → ℚ × List ℚ)
    (fuel : ℕ) : Option (List (List ℚ)) :=
  seqOpt ((List.range (n - s.N_l)).map (fun i => askSlotLoop m s.weights s.theta (draws i) 0 fuel))

/-- Source `ask(n_samples)`.  `samples` is the oracle for `self._log_prior.sample(n)`
(a list of `n` draws from the prior), `draws` the per-slot randomness of the
`t > 0` retry loops.  The outer `none` means `ask` never returns (a retry
loop that finds no feasible candidate within `fuel` attempts). -/
def askF (m : Model) (s : PmcState) (n : ℕ) (samples : List (List ℚ))
    (draws : ℕ → ℕ → ℚ × List ℚ) (fuel : ℕ) :
    Option (Except String (List (List ℚ)) × PmcState) :=
  if s.ready_for_tell then some (.error "ask called before tell.", s)
  else if s.t = 0 then
    some (.ok samples,
      { s with xs := samples, nr_samples := samples.length, ready_for_tell := true })
  else
    match askGen m s n draws fuel with
    | none => none
    | some xs1 => some (.ok xs1, { s with xs := xs1, ready_for_tell := true })

/-- The states reachable by valid sequences of `ask`/`tell` calls: `N_l` is
set (to a positive quota) before use, `ask` at `t = 0` is called with
`n ≥ N_l`, later `ask` calls reuse the recorded batch size, and each `tell`
passes one discrepancy per candidate of the preceding `ask`. -/
inductive Reach (m : Model) : PmcState → Prop where
  | init (nl : ℕ) (pAccMin : ℚ) (hnl : 1 ≤ nl) : Reach m (initState nl pAccMin)
  | askZero (s : PmcState) (samples : List (List ℚ)) :
      Reach m s → s.ready_for_tell = false → s.t = 0 → s.N_l ≤ samples.length →
      Reach m { s with xs := samples, nr_samples := samples.length, ready_for_tell := true }
  | askPos (s : PmcState) (draws : ℕ → ℕ → ℚ × List ℚ) (fuel : ℕ) (xs1 : List (List ℚ)) :
      Reach m s → s.ready_for_tell = false → 0 < s.t →
      askGen m s s.nr_samples draws fuel = some xs1 →
      Reach m { s with xs := xs1, ready_for_tell := true }
  | tellList (s : PmcState) (fx : List ℚ) (out : Option (List (List ℚ))) (s1 : PmcState) :
      Reach m s → s.ready_for_tell = true → fx.length = s.xs.length →
      tellF m s (.list fx) = (.ok out, s1) → Reach m s1
  | tellNonList (s : PmcState) (out : Option (List (List ℚ))) (s1 : PmcState) :
      Reach m s → s.ready_for_tell = true →
      tellF m s .nonList = (.ok out, s1) → Reach m s1

/-- Source `scipy.special.expit`: `1 / (1 + exp(-x))`. -/
noncomputable def expit (x : ℝ) : ℝ := (1 + Real.exp (-x))⁻¹

/-- Source `scipy.special.logit`: `log(p / (1 - p))`. -/
noncomputable def logit (p : ℝ) : ℝ := Real.log (p / (1 - p))

/-- Source `IdentityTransformation.to_model`. -/
def identityToModel (q : List ℝ) : List ℝ := q

/-- Source `IdentityTransformation.to_search`. -/
def identityToSearch (p : List ℝ) : List ℝ := p

/-- Source `LogTransformation.to_model`: `np.exp(q)` elementwise. -/
noncomputable def logTransToModel (q : List ℝ) : List ℝ := q.map Real.exp

/-- Source `LogTransformation.to_search`: `np.log(p)` elementwise. -/
noncomputable def logTransToSearch (p : List ℝ) : List ℝ := p.map Real.log

/-- Source `LogitTransformation.to_model`: `expit(q)` elementwise. -/
noncomputable def logitTransToModel (q : List ℝ) : List ℝ := q.map expit

/-- Source `LogitTransformation.to_search`: `logit(p)` elementwise. -/
noncomputable def logitTransToSearch (p : List ℝ) : List ℝ := p.map logit

/-- Source `RectangularBoundariesTransformation.to_model`:
`(b - a) * expit(q) + a` elementwise over the bound pairs `a.zip b`. -/
noncomputable def rectToModel (a b q : List ℝ) : List ℝ :=
  List.zipWith (fun ab qi => (ab.2 - ab.1) * expit qi + ab.1) (a.zip b) q

/-- Source `RectangularBoundariesTransformation.to_search`:
`np.log(p - a) - np.log(b - p)` elementwise. -/
noncomputable def rectToSearch (a b p : List ℝ) : List ℝ :=
  List.zipWith (fun ab pi => Real.log (pi - ab.1) - Real.log (ab.2 - pi)) (a.zip b) p

/-- Source `ScalingTransformation.to_model`: `self.inv_s * q` with `inv_s = 1. / s`. -/
noncomputable def scalingToModel (s q : List ℝ) : List ℝ := List.zipWith (fun si qi => 1 / si * qi) s q

/-- Source `ScalingTransformation.to_search`: `self.s * p`. -/
noncomputable def scalingToSearch (s p : List ℝ) : List ℝ := List.zipWith (fun si pi => si * pi) s p

/-- A one-dimensional model whose prior is finite everywhere: every density
value the sampler consumes is `1`. -/
def mOne : Model :=
  { dim := 1, logPriorFinite := fun _ => true, expLogPrior := fun _ => 1,
    kernelPdf := fun _ _ _ => 1 }

/-- A one-dimensional model whose log-prior is `-inf` everywhere. -/
def mNoSupport : Model :=
  { dim := 1, logPriorFinite := fun _ => false, expLogPrior := fun _ => 1,
    kernelPdf := fun _ _ _ => 1 }

/-- A one-dimensional model whose kernel density distinguishes the old
particles `[0]` and `[1]`. -/
def mTies : Model :=
  { dim := 1, logPriorFinite := fun _ => true, expLogPrior := fun _ => 1,
    kernelPdf := fun _ _ point => if point = [1] then 3 else 1 }

/-- Run W (`N_l = 1`, `p_acc_min = 1/2`): state after `ask(2)` at `t = 0`
returned the prior samples `[[0], [1]]`. -/
def sW1 : PmcState :=
  { initState 1 (1 / 2) with xs := [[0], [1]], nr_samples := 2, ready_for_tell := true }

/-- Run W: state after `tell([0, 1])` at `t = 0`. -/
def sW2 : PmcState := (tellF mOne sW1 (.list [0, 1])).2

/-- Run W: state after the `t = 1` `ask` generated the candidate `[5]`. -/
def sW3 : PmcState := { sW2 with xs := [[5]], ready_for_tell := true }

/-- Run W: state after the non-terminal `tell([0])` at `t = 1`. -/
def sW4 : PmcState := (tellF mOne sW3 (.list [0])).2

/-- Run T (`N_l = 1`, `p_acc_min = 1`): state after `ask(2)` at `t = 0`
returned the prior samples `[[0], [1]]`. -/
def sT1 : PmcState :=
  { initState 1 1 with xs := [[0], [1]], nr_samples := 2, ready_for_tell := true }

/-- Run T: state after `tell([0, 1])` at `t = 0`. -/
def sT2 : PmcState := (tellF mOne sT1 (.list [0, 1])).2

/-- Run T: state after the `t = 1` `ask` generated the candidate `[5]`. -/
def sT3 : PmcState := { sT2 with xs := [[5]], ready_for_tell := true }

/-- Run T: state after the convergence-declaring `tell([7])` at `t = 1`. -/
def sT4 : PmcState := (tellF mOne sT3 (.list [7])).2

/-- Run K (`N_l = 1`, `p_acc_min = 1/2`), against `mTies`: state after
`ask(2)` at `t = 0` returned the prior samples `[[0], [1]]`. -/
def sK1 : PmcState :=
  { initState 1 (1 / 2) with xs := [[0], [1]], nr_samples := 2, ready_for_tell := true }

/-- Run K: state after `tell([5, 5])` at `t = 0`: the tied discrepancies make
BOTH particles pass the threshold `epsilon = 5`, so the previous population
has 2 particles while `N_l = 1`. -/
def sK2 : PmcState := (tellF mTies sK1 (.list [5, 5])).2

/-- Run K: state after the `t = 1` `ask` generated the candidate `[0]`. -/
def sK3 : PmcState := { sK2 with xs := [[0]], ready_for_tell := true }

lemma maskSelect_length {α : Type} :
    ∀ (mask : List Bool) (l : List α), mask.length = l.length →
      (maskSelect mask l).length = mask.count true
  | [], [], _ => rfl
  | true :: mask, a :: l, h => by
    simp only [maskSelect, List.zip_cons_cons, List.filterMap_cons] at *
    simpa [List.count_cons] using maskSelect_length mask l (by simpa using h)
  | false :: mask, a :: l, h => by
    simp only [maskSelect, List.zip_cons_cons, List.filterMap_cons] at *
    simpa [List.count_cons] using maskSelect_length mask l (by simpa using h)

lemma maskSelect_map_self {α : Type} (q : α → Bool) :
    ∀ l : List α, maskSelect (l.map q) l = l.filter q
  | [] => rfl
  | a :: l => by
    have ih := maskSelect_map_self q l
    simp only [maskSelect] at ih ⊢
    simp only [List.map_cons, List.zip_cons_cons, List.filterMap_cons, List.filter_cons]
    cases h : q a <;> simp [h, ih]

lemma getD_range_map {α : Type} (d : α) :
    ∀ l : List α, (List.range l.length).map (fun i => l.getD i d) = l
  | [] => rfl
  | a :: l => by
    rw [List.length_cons, List.range_succ_eq_map, List.map_cons, List.map_map]
    simp only [Function.comp_def, List.getD_cons_succ, List.getD_cons_zero]
    rw [getD_range_map d l]

lemma seqOpt_length {α : Type} :
    ∀ {l : List (Option α)} {xs : List α}, seqOpt l = some xs → xs.length = l.length
  | [], xs, h => by
    simp only [seqOpt, Option.some.injEq] at h
    subst h; rfl
  | none :: rest, xs, h => by simp [seqOpt] at h
  | some a :: rest, xs, h => by
    simp only [seqOpt, Option.map_eq_some'] at h
    obtain ⟨l2, hl2, rfl⟩ := h
    simpa using seqOpt_length hl2

/-- If at least `m` entries of `l` are `≤ e`, the `m`-th order statistic of
`l` is `≤ e`. -/
lemma calcQ_le {l : List ℚ} {e : ℚ} {m : ℕ} (hm : 1 ≤ m)
    (hc : m ≤ l.countP (fun a => decide (a ≤ e))) : calcQ m l ≤ e := by
  set p : ℚ → Bool := fun a => decide (a ≤ e) with hp
  set s := l.insertionSort (· ≤ ·) with hs
  have hperm : s.Perm l := List.perm_insertionSort _ l
  have hsort : List.Sorted (· ≤ ·) s := List.sorted_insertionSort _ l
  have hcnt : s.countP p = l.countP p := hperm.countP_eq p
  have hlen : m ≤ s.length := by
    calc m ≤ l.countP p := hc
    _ ≤ l.length := List.countP_le_length p
    _ = s.length := hperm.length_eq.symm
  by_contra hcon
  push_neg at hcon
  have hm1 : m - 1 < s.length := by omega
  have hdrop : s.drop (m - 1) = s.get ⟨m - 1, hm1⟩ :: s.drop m := by
    have := List.drop_eq_getElem_cons hm1
    simpa [Nat.sub_add_cancel hm] using this
  have hq : calcQ m l = s.get ⟨m - 1, hm1⟩ := by
    rw [calcQ, ← hs, List.getD_eq_getElem _ _ hm1]
    rfl
  have hdropped : ∀ x ∈ s.drop (m - 1), ¬ p x = true := by
    intro x hx
    have hsorted_drop : (s.drop (m - 1)).Pairwise (· ≤ ·) :=
      hsort.sublist (List.drop_sublist _ _)
    rw [hdrop] at hsorted_drop hx
    have hgex : s.get ⟨m - 1, hm1⟩ ≤ x := by
      rcases List.mem_cons.mp hx with hx1 | hx1
      · simp [hx1]
      · exact (List.pairwise_cons.mp hsorted_drop).1 x hx1
    have : e < x := lt_of_lt_of_le (hq ▸ hcon) hgex
    simp [hp]
    linarith
  have hsplit : s.countP p = (s.take (m - 1)).countP p + (s.drop (m - 1)).countP p := by
    conv_lhs => rw [← List.take_append_drop (m - 1) s]
    exact List.countP_append ..
  have h0 : (s.drop (m - 1)).countP p = 0 := List.countP_eq_zero.mpr hdropped
  have hle : s.countP p ≤ m - 1 := by
    rw [hsplit, h0, Nat.add_zero]
    calc (s.take (m - 1)).countP p ≤ (s.take (m - 1)).length := List.countP_le_length p
    _ ≤ m - 1 := by simp [List.length_take]
  omega

/-- At least `m` entries of `l` are `≤` its `m`-th order statistic. -/
lemma count_calcQ_ge {l : List ℚ} {m : ℕ} (hm : 1 ≤ m) (hlen : m ≤ l.length) :
    m ≤ l.countP (fun a => decide (a ≤ calcQ m l)) := by
  set s := l.insertionSort (· ≤ ·) with hs
  have hperm : s.Perm l := List.perm_insertionSort _ l
  have hsort : List.Sorted (· ≤ ·) s := List.sorted_insertionSort _ l
  have hslen : m ≤ s.length := by rw [hperm.length_eq]; exact hlen
  have hm1 : m - 1 < s.length := by omega
  set q := s.get ⟨m - 1, hm1⟩ with hqdef
  have hq : calcQ m l = q := by
    rw [calcQ, ← hs, List.getD_eq_getElem _ _ hm1]
    rfl
  set p : ℚ → Bool := fun a => decide (a ≤ calcQ m l) with hp
  have hdrop : s.drop (m - 1) = q :: s.drop m := by
    have := List.drop_eq_getElem_cons hm1
    simpa [Nat.sub_add_cancel hm] using this
  have hsplitSorted := hsort
  rw [← List.take_append_drop (m - 1) s] at hsplitSorted
  have hparts := List.pairwise_append.mp hsplitSorted
  have htake_le : ∀ x ∈ s.take (m - 1), x ≤ q := by
    intro x hx
    exact hparts.2.2 x hx q (by rw [hdrop]; exact List.mem_cons_self q _)
  have htakem : s.take m = s.take (m - 1) ++ [q] := by
    have h1 : m = (m - 1) + 1 := by omega
    rw [h1, List.take_succ]
    congr 1
    have hsome : s[m - 1]? = some q := by
      rw [List.getElem?_eq_getElem hm1]
      rfl
    simp [hsome]
  have hallm : ∀ x ∈ s.take m, p x = true := by
    intro x hx
    rw [htakem, List.mem_append] at hx
    rcases hx with hx | hx
    · simp only [hp, decide_eq_true_eq, hq]
      exact htake_le x hx
    · simp only [List.mem_singleton] at hx
      simp [hp, hx, hq]
  have hcnt_take : (s.take m).countP p = m := by
    rw [List.countP_eq_length.mpr hallm]
    simp [List.length_take]
    omega
  have : m ≤ s.countP p := by
    conv_rhs => rw [← List.take_append_drop m s, List.countP_append]
    omega
  rw [hperm.countP_eq p] at this
  exact this

lemma tellF_not_ready {m : Model} {s : PmcState} (input : TellInput)
    (h : s.ready_for_tell = false) :
    tellF m s input = (.error "tell called before ask.", s) := by
  rw [tellF.eq_def, if_pos h]

lemma tellF_nonList_eq {m : Model} {s : PmcState} (h : s.ready_for_tell = true) :
    tellF m s .nonList = (.ok none, { s with ready_for_tell := false }) := by
  rw [tellF.eq_def, if_neg (by simp [h])]

lemma tellF_list_zero {m : Model} {s : PmcState} {fx : List ℚ}
    (h : s.ready_for_tell = true) (ht : s.t = 0) :
    tellF m s (.list fx) = tellAtZero m s fx := by
  rw [tellF.eq_def, if_neg (by simp [h])]
  simp [ht]

lemma tellF_list_pos {m : Model} {s : PmcState} {fx : List ℚ}
    (h : s.ready_for_tell = true) (ht : s.t ≠ 0) :
    tellF m s (.list fx) = tellAtPos m s fx := by
  rw [tellF.eq_def, if_neg (by simp [h])]
  simp [ht]

lemma tellF_snd_fixed (m : Model) (s : PmcState) (input : TellInput) :
    (tellF m s input).2.N_l = s.N_l ∧ (tellF m s input).2.nr_samples = s.nr_samples ∧
    (tellF m s input).2.p_acc_min = s.p_acc_min ∧ (tellF m s input).2.xs = s.xs := by
  rw [tellF.eq_def]
  split
  · exact ⟨rfl, rfl, rfl, rfl⟩
  · cases input with
    | nonList => exact ⟨rfl, rfl, rfl, rfl⟩
    | list fx =>
      dsimp only
      split
      · simp [tellAtZero]
      · simp only [tellAtPos]
        split
        · exact ⟨rfl, rfl, rfl, rfl⟩
        · exact ⟨rfl, rfl, rfl, rfl⟩

lemma tellF_snd_ready {m : Model} {s : PmcState} (input : TellInput)
    (h : s.ready_for_tell = true) :
    (tellF m s input).2.ready_for_tell = false := by
  rw [tellF.eq_def, if_neg (by simp [h])]
  cases input with
  | nonList => rfl
  | list fx =>
    dsimp only
    split
    · simp [tellAtZero]
    · simp only [tellAtPos]
      split
      · rfl
      · rfl

lemma reach_Nl {m : Model} {s : PmcState} (h : Reach m s) : 1 ≤ s.N_l := by
  induction h with
  | init nl p hnl => simpa [initState] using hnl
  | askZero s samples hr hready ht hlen ih => simpa using ih
  | askPos s draws fuel xs1 hr hready ht hgen ih => simpa using ih
  | tellList s fx out s1 hr hready hlenfx heq ih =>
    have h2 : s1 = (tellF m s (.list fx)).2 := by rw [heq]
    rw [h2, (tellF_snd_fixed m s (.list fx)).1]
    exact ih
  | tellNonList s out s1 hr hready heq ih =>
    have h2 : s1 = (tellF m s .nonList).2 := by rw [heq]
    rw [h2, (tellF_snd_fixed m s .nonList).1]
    exact ih

lemma reach_xs_zero {m : Model} {s : PmcState} (h : Reach m s) :
    s.t = 0 → s.ready_for_tell = true → s.N_l ≤ s.xs.length := by
  induction h with
  | init nl p hnl => intro _ hready; simp [initState] at hready
  | askZero s samples hr hready ht hlen ih => intro _ _; simpa using hlen
  | askPos s draws fuel xs1 hr hready ht hgen ih =>
    intro ht1 _
    simp only at ht1
    omega
  | tellList s fx out s1 hr hready hlenfx heq ih =>
    intro _ hready1
    have h2 : s1 = (tellF m s (.list fx)).2 := by rw [heq]
    rw [h2, tellF_snd_ready (.list fx) hready] at hready1
    exact absurd hready1 (by simp)
  | tellNonList s out s1 hr hready heq ih =>
    intro _ hready1
    have h2 : s1 = (tellF m s .nonList).2 := by rw [heq]
    rw [h2, tellF_snd_ready .nonList hready] at hready1
    exact absurd hready1 (by simp)

lemma reach_xs_pos {m : Model} {s : PmcState} (h : Reach m s) :
    0 < s.t → s.ready_for_tell = true → s.xs.length = s.nr_samples - s.N_l := by
  induction h with
  | init nl p hnl => intro _ hready; simp [initState] at hready
  | askZero s samples hr hready ht hlen ih =>
    intro ht1 _
    simp only at ht1
    omega
  | askPos s draws fuel xs1 hr hready ht hgen ih =>
    intro _ _
    have hl := seqOpt_length hgen
    simpa using hl
  | tellList s fx out s1 hr hready hlenfx heq ih =>
    intro _ hready1
    have h2 : s1 = (tellF m s (.list fx)).2 := by rw [heq]
    rw [h2, tellF_snd_ready (.list fx) hready] at hready1
    exact absurd hready1 (by simp)
  | tellNonList s out s1 hr hready heq ih =>
    intro _ hready1
    have h2 : s1 = (tellF m s .nonList).2 := by rw [heq]
    rw [h2, tellF_snd_ready .nonList hready] at hready1
    exact absurd hready1 (by simp)

lemma decide_and_self (e : ℚ) :
    (fun a : ℚ => decide (a ≤ e) && decide (a ≤ e)) = (fun a : ℚ => decide (a ≤ e)) := by
  funext a
  cases decide (a ≤ e) <;> rfl

/-- The central inductive invariant: once `t > 0`, at least `N_l` of the
stored discrepancies lie below the current threshold. -/
lemma reach_count {m : Model} {s : PmcState} (h : Reach m s) :
    0 < s.t → s.N_l ≤ s.fxs.countP (fun a => decide (a ≤ s.epsilon)) := by
  induction h with
  | init nl p hnl => intro ht; simp [initState] at ht
  | askZero s samples hr hready ht hlen ih =>
    intro ht1
    simp only at ht1
    omega
  | askPos s draws fuel xs1 hr hready ht hgen ih =>
    intro ht1
    simpa using ih ht
  | tellNonList s out s1 hr hready heq ih =>
    intro ht1
    have h2 : s1 = (tellF m s .nonList).2 := by rw [heq]
    rw [tellF_nonList_eq hready] at h2
    subst h2
    simp only at ht1 ⊢
    exact ih ht1
  | tellList s fx out s1 hr hready hlenfx heq ih =>
    intro ht1
    have h2 : s1 = (tellF m s (.list fx)).2 := by rw [heq]
    by_cases ht : s.t = 0
    · rw [tellF_list_zero hready ht] at h2
      simp only [tellAtZero] at h2
      subst h2
      simp only
      rw [maskSelect_map_self, List.countP_filter, decide_and_self]
      apply count_calcQ_ge (reach_Nl hr)
      have := reach_xs_zero hr ht hready
      omega
    · have htpos : 0 < s.t := Nat.pos_of_ne_zero ht
      have hk : s.nr_samples - s.N_l = fx.length := by
        rw [hlenfx, reach_xs_pos hr htpos hready]
      rw [tellF_list_pos hready ht] at h2
      simp only [tellAtPos] at h2
      split at h2
      · subst h2
        simp only
        rw [List.countP_append]
        have := ih htpos
        omega
      · subst h2
        simp only
        rw [maskSelect_map_self, maskSelect_map_self, List.countP_append,
          List.countP_filter, List.countP_filter, decide_and_self]
        have hrange : (List.range (s.nr_samples - s.N_l)).map (fun i => fx.getD i 0) = fx := by
          rw [hk]
          exact getD_range_map 0 fx
        have hlen1 : s.N_l ≤ (s.fxs ++ (List.range (s.nr_samples - s.N_l)).map
            (fun i => fx.getD i 0)).length := by
          have h3 := ih htpos
          have h4 := List.countP_le_length (l := s.fxs) (fun a => decide (a ≤ s.epsilon))
          simp only [List.length_append]
          omega
        have hbig := count_calcQ_ge (l := s.fxs ++ (List.range (s.nr_samples - s.N_l)).map
            (fun i => fx.getD i 0)) (reach_Nl hr) hlen1
        rw [hrange] at hbig ⊢
        rw [List.countP_append] at hbig
        exact hbig

lemma reach_sW3 : Reach mOne sW3 := by
  have h0 : Reach mOne (initState 1 (1 / 2)) := Reach.init 1 (1 / 2) (le_refl 1)
  have h1 : Reach mOne sW1 :=
    Reach.askZero (initState 1 (1 / 2)) [[0], [1]] h0 rfl rfl (by decide)
  have h2 : Reach mOne sW2 := Reach.tellList sW1 [0, 1] none sW2 h1 rfl rfl rfl
  exact Reach.askPos sW2 (fun _ _ => (0, [5])) 1 [[5]] h2 rfl (by decide) (by with_unfolding_all rfl)

lemma reach_sT3 : Reach mOne sT3 := by
  have h0 : Reach mOne (initState 1 1) := Reach.init 1 1 (le_refl 1)
  have h1 : Reach mOne sT1 := Reach.askZero (initState 1 1) [[0], [1]] h0 rfl rfl (by decide)
  have h2 : Reach mOne sT2 := Reach.tellList sT1 [0, 1] none sT2 h1 rfl rfl rfl
  exact Reach.askPos sT2 (fun _ _ => (0, [5])) 1 [[5]] h2 rfl (by decide) (by with_unfolding_all rfl)

lemma reach_sK3 : Reach mTies sK3 := by
  have h0 : Reach mTies (initState 1 (1 / 2)) := Reach.init 1 (1 / 2) (le_refl 1)
  have h1 : Reach mTies sK1 :=
    Reach.askZero (initState 1 (1 / 2)) [[0], [1]] h0 rfl rfl (by decide)
  have h2 : Reach mTies sK2 := Reach.tellList sK1 [5, 5] none sK2 h1 rfl rfl rfl
  exact Reach.askPos sK2 (fun _ _ => (0, [0])) 1 [[0]] h2 rfl (by decide) (by with_unfolding_all rfl)

/-- C2: for every run of the sampler, the epsilon threshold is monotonically
non-increasing: after any completed non-terminal `tell` at `t > 0` (output
`.ok none`), the new epsilon is `≤` the epsilon before the call. -/
theorem C2_epsilon_nonincreasing {m : Model} {s : PmcState} {fx : List ℚ} {s1 : PmcState}
    (hreach : Reach m s) (hready : s.ready_for_tell = true) (ht : 0 < s.t)
    (heq : tellF m s (.list fx) = (.ok none, s1)) :
    s1.epsilon ≤ s.epsilon := by
  have htne : s.t ≠ 0 := by omega
  rw [tellF_list_pos hready htne] at heq
  simp only [tellAtPos] at heq
  split at heq
  · exact absurd (congrArg Prod.fst heq) (by simp)
  · rw [Prod.mk.injEq] at heq
    obtain ⟨-, h2⟩ := heq
    rw [← h2]
    apply calcQ_le (reach_Nl hreach)
    rw [List.countP_append]
    have := reach_count hreach ht
    omega

/-- Witness for C2: in the concrete run W, the non-terminal `tell([0])` at
`t = 1` keeps epsilon at `0 ≤ 0`. -/
theorem C2_witness : sW4.epsilon ≤ sW3.epsilon :=
  @C2_epsilon_nonincreasing mOne sW3 [0] sW4 reach_sW3 rfl (by decide)
    (by with_unfolding_all rfl)

/-- C1 (amended): after a completed `tell` at `t = 0` and after a completed
non-terminal `tell` at `t > 0`, population, weight list and discrepancy list
have equal lengths; the convergence-declaring `tell` extends the population
and the discrepancy list by the batch but leaves the weight list unchanged,
so after it `len(theta) = len(fxs) = len(weights) + batch`. -/
theorem C1_population_lengths :
    (∀ (m : Model) (s : PmcState) (fx : List ℚ) (out : Option (List (List ℚ)))
       (s1 : PmcState), s.ready_for_tell = true → s.t = 0 → fx.length = s.xs.length →
       tellF m s (.list fx) = (.ok out, s1) →
       s1.theta.length = s1.weights.length ∧ s1.weights.length = s1.fxs.length) ∧
    (∀ (m : Model) (s : PmcState) (fx : List ℚ) (s1 : PmcState),
       s.ready_for_tell = true → 0 < s.t →
       s.theta.length = s.weights.length → s.weights.length = s.fxs.length →
       fx.length = s.xs.length → s.xs.length = s.nr_samples - s.N_l →
       tellF m s (.list fx) = (.ok none, s1) →
       s1.theta.length = s1.weights.length ∧ s1.weights.length = s1.fxs.length) ∧
    (∀ (m : Model) (s : PmcState) (fx : List ℚ) (pop : List (List ℚ)) (s1 : PmcState),
       s.ready_for_tell = true → 0 < s.t →
       s.theta.length = s.weights.length → s.weights.length = s.fxs.length →
       fx.length = s.xs.length → s.xs.length = s.nr_samples - s.N_l →
       tellF m s (.list fx) = (.ok (some pop), s1) →
       s1.theta.length = s1.fxs.length ∧
       s1.theta.length = s1.weights.length + (s.nr_samples - s.N_l)) := by
  refine ⟨?_, ?_, ?_⟩
  · intro m s fx out s1 hready ht hlen heq
    rw [tellF_list_zero hready ht] at heq
    simp only [tellAtZero] at heq
    rw [Prod.mk.injEq] at heq
    obtain ⟨-, h2⟩ := heq
    rw [← h2]
    refine ⟨?_, ?_⟩
    · rw [List.length_replicate]
    · rw [List.length_replicate,
        maskSelect_length _ _ (by simp only [List.length_map]; omega),
        maskSelect_length _ _ (by simp only [List.length_map])]
  · intro m s fx s1 hready ht hTW hWF hlen hxsk heq
    have htne : s.t ≠ 0 := by omega
    rw [tellF_list_pos hready htne] at heq
    simp only [tellAtPos] at heq
    split at heq
    · exact absurd (congrArg Prod.fst heq) (by simp)
    · rw [Prod.mk.injEq] at heq
      obtain ⟨-, h2⟩ := heq
      rw [← h2]
      refine ⟨?_, ?_⟩
      · simp only [List.length_append]
        rw [maskSelect_length _ _ (by simp only [List.length_map]; omega),
          maskSelect_length _ _ (by simp only [List.length_map]; omega),
          maskSelect_length _ _ (by simp only [List.length_map]; omega),
          maskSelect_length _ _ (by simp only [List.length_map, List.length_range]; omega)]
      · simp only [List.length_append]
        rw [maskSelect_length _ _ (by simp only [List.length_map]; omega),
          maskSelect_length _ _ (by simp only [List.length_map, List.length_range]; omega),
          maskSelect_length _ _ (by simp only [List.length_map]),
          maskSelect_length _ _ (by simp only [List.length_map])]
  · intro m s fx pop s1 hready ht hTW hWF hlen hxsk heq
    have htne : s.t ≠ 0 := by omega
    rw [tellF_list_pos hready htne] at heq
    simp only [tellAtPos] at heq
    split at heq
    · rw [Prod.mk.injEq] at heq
      obtain ⟨-, h2⟩ := heq
      rw [← h2]
      simp only [List.length_append, List.length_map, List.length_range]
      omega
    · exact absurd (congrArg Prod.fst heq) (by simp)

/-- Witness for C1 (amended): the convergence-declaring `tell([7])` of run T
leaves a population and discrepancy list of length 2 but a weight list of
length 1 = 2 - (2 - 1). -/
theorem C1_population_lengths_witness :
    sT4.theta.length = sT4.fxs.length ∧
    sT4.theta.length = sT4.weights.length + (sT3.nr_samples - sT3.N_l) :=
  C1_population_lengths.2.2 mOne sT3 [7] [[0], [5]] sT4 rfl (by decide)
    (by decide) (by decide) (by decide) (by decide) (by with_unfolding_all rfl)

/-- Counterexample to C1 as stated: in run T the convergence-declaring
`tell([7])` is a completed `tell` (it returns the final population) after
which the population and discrepancy lists have length 2 while the weight
list still has length 1. -/
theorem C1_counterexample :
    Reach mOne sT3 ∧ sT3.ready_for_tell = true ∧ 0 < sT3.t ∧
    ([(7 : ℚ)] : List ℚ).length = sT3.xs.length ∧
    (tellF mOne sT3 (.list [7])).1 = .ok (some [[0], [5]]) ∧
    sT4.theta.length = 2 ∧ sT4.fxs.length = 2 ∧ sT4.weights.length = 1 :=
  ⟨reach_sT3, rfl, by decide, by decide, by with_unfolding_all rfl,
    by with_unfolding_all rfl, by with_unfolding_all rfl, by with_unfolding_all rfl⟩

lemma count_true_map {α : Type} (p : α → Bool) :
    ∀ l : List α, (l.map p).count true = l.countP p
  | [] => rfl
  | a :: l => by
    simp only [List.map_cons, List.count_cons, List.countP_cons, count_true_map p l]
    cases h : p a <;> simp [h]

/-- C3: a `tell(fx)` at `t = 0` (with `N_l` set, `1 ≤ N_l ≤ len fx`) sets
epsilon to the `N_l`-th smallest entry of `fx` (ascending sort, index
`N_l - 1`), keeps exactly the particles whose discrepancy is `≤ epsilon`,
gives each kept particle weight `1 / kept`, sets the proposal covariance to
twice the weighted empirical covariance of the kept particles, and advances
`t` from 0 to 1. -/
theorem C3_tell_initial {m : Model} {s : PmcState} {fx : List ℚ}
    {out : Option (List (List ℚ))} {s1 : PmcState}
    (hready : s.ready_for_tell = true) (ht : s.t = 0)
    (hlen : fx.length = s.xs.length) (hone : 1 ≤ s.N_l) (hNl : s.N_l ≤ fx.length)
    (heq : tellF m s (.list fx) = (.ok out, s1)) :
    out = none ∧
    s1.epsilon = (fx.insertionSort (· ≤ ·)).getD (s.N_l - 1) 0 ∧
    s1.theta = maskSelect (fx.map (fun a => decide (a ≤ s1.epsilon))) s.xs ∧
    s1.fxs = fx.filter (fun a => decide (a ≤ s1.epsilon)) ∧
    s1.theta.length = fx.countP (fun a => decide (a ≤ s1.epsilon)) ∧
    0 < s1.theta.length ∧
    s1.weights = List.replicate s1.theta.length (1 / (s1.theta.length : ℚ)) ∧
    s1.var = sMulM 2 (empVar m.dim s1.weights s1.theta) ∧
    s1.t = 1 := by
  rw [tellF_list_zero hready ht] at heq
  simp only [tellAtZero] at heq
  rw [Prod.mk.injEq] at heq
  obtain ⟨hfst, h2⟩ := heq
  have hout : out = none := by
    cases out with
    | none => rfl
    | some l => exact absurd hfst (by simp)
  subst hout
  refine ⟨rfl, ?_, ?_, ?_, ?_, ?_, ?_, ?_, ?_⟩
  · rw [← h2]
    rfl
  · rw [← h2]
  · rw [← h2]
    simp only
    rw [maskSelect_map_self]
  · rw [← h2]
    simp only
    rw [maskSelect_length _ _ (by simp only [List.length_map]; omega), count_true_map]
  · rw [← h2]
    simp only
    rw [maskSelect_length _ _ (by simp only [List.length_map]; omega), count_true_map]
    have := count_calcQ_ge hone hNl
    omega
  · rw [← h2]
  · rw [← h2]
  · rw [← h2]
    simp only
    omega

/-- Witness for C3: run T's `tell([0, 1])` at `t = 0`. -/
theorem C3_witness :
    1 ≤ sT1.N_l ∧ sT1.N_l ≤ ([0, 1] : List ℚ).length ∧ sT2.t = 1 ∧ 0 < sT2.theta.length := by
  have h := @C3_tell_initial mOne sT1 [0, 1] none sT2
    rfl rfl (by decide) (by decide) (by decide) (by with_unfolding_all rfl)
  exact ⟨by decide, by decide, h.2.2.2.2.2.2.2.2, h.2.2.2.2.2.1⟩

/-- C5: at `t > 0`, when the empirical acceptance probability
`p_acc = count(new fx ≤ epsilon) / batch` is `≤ p_acc_min`, `tell` appends
the whole batch to the population unconditionally and returns that final
population; in particular with `p_acc_min = 1` every `tell` at `t > 0`
(non-empty batch) returns a final population. -/
theorem C5_terminal {m : Model} {s : PmcState} {fx : List ℚ}
    (hready : s.ready_for_tell = true) (ht : 0 < s.t)
    (hk : 0 < s.nr_samples - s.N_l) (hfx : fx.length = s.nr_samples - s.N_l) :
    (1 / ((s.nr_samples - s.N_l : ℕ) : ℚ) *
        ((fx.map (fun a => decide (a ≤ s.epsilon))).count true : ℚ) ≤ s.p_acc_min →
      (tellF m s (.list fx)).1 = .ok (some (s.theta ++ s.xs)) ∧
      (tellF m s (.list fx)).2.theta = s.theta ++ s.xs) ∧
    (s.p_acc_min = 1 →
      (tellF m s (.list fx)).1 = .ok (some (s.theta ++ s.xs)) ∧
      (tellF m s (.list fx)).2.theta = s.theta ++ s.xs) := by
  have htne : s.t ≠ 0 := by omega
  have hbody : ∀ hterm : 1 / ((s.nr_samples - s.N_l : ℕ) : ℚ) *
      ((fx.map (fun a => decide (a ≤ s.epsilon))).count true : ℚ) ≤ s.p_acc_min,
      (tellF m s (.list fx)).1 = .ok (some (s.theta ++ s.xs)) ∧
      (tellF m s (.list fx)).2.theta = s.theta ++ s.xs := by
    intro hterm
    rw [tellF_list_pos hready htne]
    simp only [tellAtPos]
    rw [if_pos hterm]
    exact ⟨rfl, rfl⟩
  refine ⟨hbody, ?_⟩
  intro hpmin
  apply hbody
  rw [hpmin]
  have hcount : ((fx.map (fun a => decide (a ≤ s.epsilon))).count true : ℚ) ≤
      ((s.nr_samples - s.N_l : ℕ) : ℚ) := by
    have h1 : (fx.map (fun a => decide (a ≤ s.epsilon))).count true ≤ fx.length := by
      have := List.count_le_length (true) (fx.map (fun a => decide (a ≤ s.epsilon)))
      simpa using this
    exact_mod_cast hfx ▸ h1
  have hkq : (0 : ℚ) < ((s.nr_samples - s.N_l : ℕ) : ℚ) := by exact_mod_cast hk
  rw [div_mul_eq_mul_div, one_mul, div_le_one hkq]
  exact hcount

/-- Witness for C5: in run T (`p_acc_min = 1`) the first `tell` at `t = 1`
returns the final population. -/
theorem C5_witness :
    (tellF mOne sT3 (.list [7])).1 = .ok (some (sT3.theta ++ sT3.xs)) ∧
    (tellF mOne sT3 (.list [7])).2.theta = sT3.theta ++ sT3.xs :=
  (@C5_terminal mOne sT3 [7] rfl (by decide) (by decide) (by decide)).2 (by decide)

/-- C7: calling `ask` while a proposal is outstanding raises
`RuntimeError('ask called before tell.')`, and calling `tell` with no
outstanding proposal raises `RuntimeError('tell called before ask.')`;
both raises happen before any attribute is assigned, so the state is
returned unchanged. -/
theorem C7_protocol (m : Model) (s : PmcState) :
    (s.ready_for_tell = true → ∀ (n : ℕ) (samples : List (List ℚ))
        (draws : ℕ → ℕ → ℚ × List ℚ) (fuel : ℕ),
      askF m s n samples draws fuel = some (.error "ask called before tell.", s)) ∧
    (s.ready_for_tell = false → ∀ input : TellInput,
      tellF m s input = (.error "tell called before ask.", s)) := by
  constructor
  · intro h n samples draws fuel
    rw [askF.eq_def]
    simp [h]
  · intro h input
    exact tellF_not_ready input h

/-- Witness for C7: concrete protocol violations in runs T. -/
theorem C7_witness :
    askF mOne sT3 2 [] (fun _ _ => (0, [0])) 1 =
      some (.error "ask called before tell.", sT3) ∧
    tellF mOne sT2 (.list [0]) = (.error "tell called before ask.", sT2) :=
  ⟨(C7_protocol mOne sT3).1 rfl 2 [] (fun _ _ => (0, [0])) 1,
    (C7_protocol mOne sT2).2 (by decide) (.list [0])⟩

/-- C10: a `tell` in the ready state whose argument is not a Python list
only clears `_ready_for_tell` and returns `None`: epsilon, population,
weights, discrepancies and the iteration counter are all untouched and no
error is raised. -/
theorem C10_nonlist_tell {m : Model} {s : PmcState} (h : s.ready_for_tell = true) :
    tellF m s .nonList = (.ok none, { s with ready_for_tell := false }) ∧
    (tellF m s .nonList).2.epsilon = s.epsilon ∧
    (tellF m s .nonList).2.theta = s.theta ∧
    (tellF m s .nonList).2.weights = s.weights ∧
    (tellF m s .nonList).2.fxs = s.fxs ∧
    (tellF m s .nonList).2.t = s.t := by
  have he := tellF_nonList_eq (m := m) h
  exact ⟨he, by rw [he], by rw [he], by rw [he], by rw [he], by rw [he]⟩

/-- Witness for C10: a non-list `tell` in run W discards the batch. -/
theorem C10_witness :
    tellF mOne sW1 .nonList = (.ok none, { sW1 with ready_for_tell := false }) :=
  (C10_nonlist_tell rfl).1

lemma askSlotLoop_noSupport (w : List ℚ) (th : List (List ℚ)) (d : ℕ → ℚ × List ℚ) :
    ∀ (a fuel : ℕ), askSlotLoop mNoSupport w th d a fuel = none
  | _, 0 => rfl
  | a, fuel + 1 => by
    simp only [askSlotLoop, mNoSupport]
    exact askSlotLoop_noSupport w th d (a + 1) fuel

/-- Counterexample to C6 as stated: against a prior whose log-density is
`-inf` everywhere, the retry loop of `ask` at `t > 0` never finishes within
any number of attempts and never surfaces a failure — `ask` does not
terminate.  (`fuel` only instruments the loop; the source loop has no cap:
its counter `cnt` is incremented but never compared with anything.) -/
theorem C6_counterexample :
    ¬ ∃ (fuel : ℕ) (res : Except String (List (List ℚ)) × PmcState),
        askF mNoSupport
          { theta := [[0]], fxs := [0], weights := [1], n_weights := [], epsilon := 0,
            var := [[0]], t := 1, nr_samples := 2, N_l := 1, p_acc_min := 1 / 2,
            xs := [], ready_for_tell := false } 2 [] (fun _ _ => (0, [0])) fuel =
          some res := by
  rintro ⟨fuel, res, h⟩
  have hgen : askGen mNoSupport
      { theta := [[0]], fxs := [0], weights := [1], n_weights := [], epsilon := 0,
        var := [[0]], t := 1, nr_samples := 2, N_l := 1, p_acc_min := 1 / 2,
        xs := [], ready_for_tell := false } 2 (fun _ _ => (0, [0])) fuel = none := by
    simp [askGen, seqOpt, askSlotLoop_noSupport]
  rw [askF.eq_def] at h
  simp only [hgen] at h
  simp at h

/-- C6 (amended): the retry loop of one slot of `ask` at `t > 0` has no
attempt cap and surfaces no failure: it returns a candidate exactly when
some attempt (within the observation fuel) draws a perturbation with finite
prior log-density, namely the first such candidate; with no feasible draw it
runs forever. -/
theorem C6_retry_loop_uncapped (m : Model) (w : List ℚ) (th : List (List ℚ))
    (d : ℕ → ℚ × List ℚ) :
    ∀ (a fuel : ℕ) (c : List ℚ),
      askSlotLoop m w th d a fuel = some c ↔
        ∃ i : ℕ, a ≤ i ∧ i < a + fuel ∧ m.logPriorFinite (candAt w th d i) = true ∧
          (∀ j : ℕ, a ≤ j → j < i → m.logPriorFinite (candAt w th d j) = false) ∧
          c = candAt w th d i := by
  intro a fuel
  induction fuel generalizing a with
  | zero =>
    intro c
    simp only [askSlotLoop]
    constructor
    · intro h
      exact absurd h (by simp)
    · rintro ⟨i, h1, h2, -⟩
      omega
  | succ fuel ih =>
    intro c
    by_cases hf : m.logPriorFinite (candAt w th d a) = true
    · simp only [askSlotLoop, hf, if_pos, Option.some.injEq]
      constructor
      · intro h
        exact ⟨a, le_refl a, by omega, hf, fun j h1 h2 => by omega, h.symm⟩
      · rintro ⟨i, hai, hlt, hfi, hmin, hc⟩
        rcases Nat.eq_or_lt_of_le hai with heq | hgt
        · rw [← heq] at hc
          exact hc.symm
        · have hcontra := hmin a (le_refl a) hgt
          rw [hf] at hcontra
          cases hcontra
    · have hf2 : m.logPriorFinite (candAt w th d a) = false := by
        cases hcase : m.logPriorFinite (candAt w th d a)
        · rfl
        · exact absurd hcase hf
      simp only [askSlotLoop, hf2]
      rw [if_neg (by simp)]
      rw [ih (a + 1) c]
      constructor
      · rintro ⟨i, hai, hlt, hfi, hmin, hc⟩
        refine ⟨i, by omega, by omega, hfi, ?_, hc⟩
        intro j h1 h2
        rcases Nat.eq_or_lt_of_le h1 with heq | hgt
        · rw [← heq]
          exact hf2
        · exact hmin j hgt h2
      · rintro ⟨i, hai, hlt, hfi, hmin, hc⟩
        have hia : i ≠ a := by
          intro hcon
          rw [hcon] at hfi
          rw [hfi] at hf2
          cases hf2
        refine ⟨i, by omega, by omega, hfi, ?_, hc⟩
        intro j h1 h2
        exact hmin j (by omega) h2

/-- Witness for C6 (amended): the loop returns the first feasible candidate. -/
theorem C6_retry_loop_uncapped_witness :
    askSlotLoop mOne [1] [[0]] (fun _ => (0, [5])) 0 3 =
      some (candAt [1] [[0]] (fun _ => (0, [5])) 0) :=
  (C6_retry_loop_uncapped mOne [1] [[0]] (fun _ => (0, [5])) 0 3
    (candAt [1] [[0]] (fun _ => (0, [5])) 0)).mpr
    ⟨0, le_refl 0, by omega, rfl, fun j h1 h2 => by omega, rfl⟩

/-- C4 (amended): `_compute_weights(i)` equals
`exp(log_prior(x_i))` divided by the weighted kernel density over the FIRST
`N_l` old particles only (weights normalised by the sum of the first `N_l`
weights); it agrees with the entire-previous-population formula exactly when
the previous population has exactly `N_l` particles. -/
theorem C4_weights_first_Nl (m : Model) (s : PmcState) (i : ℕ)
    (h : s.weights.length = s.N_l) :
    computeWeights m s i = computeWeightsSpec m s i := by
  have hsum : ((List.range s.N_l).map (fun j => s.weights.getD j 0)).sum = s.weights.sum := by
    rw [← h]
    rw [getD_range_map]
  simp only [computeWeights, computeWeightsSpec, h, hsum]

/-- Witness for C4 (amended): in run W the previous population has exactly
`N_l = 1` particle, and the two formulas agree. -/
theorem C4_weights_witness :
    computeWeights mOne sW3 0 = computeWeightsSpec mOne sW3 0 :=
  C4_weights_first_Nl mOne sW3 0 (by decide)

/-- Counterexample to C4 as stated: in run K the `t = 0` discrepancies are
tied, so the previous accepted population has 2 particles while `N_l = 1`.
The weight the code computes for the new candidate (stored in
`self._n_weights` by the following `tell`) is `1`, while the claimed
entire-previous-population formula gives `1/2`. -/
theorem C4_counterexample :
    Reach mTies sK3 ∧ sK3.ready_for_tell = true ∧ 0 < sK3.t ∧
    sK3.weights = [1 / 2, 1 / 2] ∧ sK3.N_l = 1 ∧
    (tellF mTies sK3 (.list [0])).2.n_weights = [computeWeights mTies sK3 0] ∧
    computeWeights mTies sK3 0 = 1 ∧
    computeWeightsSpec mTies sK3 0 = 1 / 2 ∧
    ¬ ((1 : ℚ) = 1 / 2) :=
  ⟨reach_sK3, rfl, by decide, by with_unfolding_all rfl, by decide,
    by with_unfolding_all rfl, by with_unfolding_all rfl, by with_unfolding_all rfl,
    by with_unfolding_all decide⟩

/-- C8: for a non-empty population with positive total weight, every
division in `_emp_var` has a non-zero denominator (the instrumented version
agrees with the plain one), and when the sum of squared normalised weights
equals the squared (reassigned) weight sum `1` the guarded fallback branch
scales `n_V` by `1 / 1e-20 = 1e20` instead of using the general formula. -/
theorem C8_empVar_guarded (dim : ℕ) (weights : List ℚ) (theta : List (List ℚ))
    (hne : theta ≠ []) (hpos : 0 < weights.sum) :
    empVarChecked dim weights theta = some (empVar dim weights theta) ∧
    (normSqSum (normWeights weights) theta = 1 →
      empVar dim weights theta =
        sMulM (10 ^ 20) (nVmat dim (normWeights weights) theta)) := by
  constructor
  · simp only [empVarChecked, empVar]
    rw [if_neg hne, if_neg (ne_of_gt hpos)]
    by_cases hsq : (1 : ℚ) ^ 2 = normSqSum (normWeights weights) theta
    · rw [if_pos hsq, if_pos hsq, if_neg (by norm_num)]
    · rw [if_neg hsq, if_neg hsq, if_neg (fun hc => hsq (by linarith))]
  · intro hsq
    simp only [empVar]
    rw [if_pos (by rw [hsq]; norm_num)]
    have hnum : (1 : ℚ) / (1 / 10 ^ 20) = 10 ^ 20 := by norm_num
    rw [hnum]

/-- Witness for C8: a concrete two-particle population with positive total
weight. -/
theorem C8_witness :
    empVarChecked 1 [1, 1] [[0], [5]] = some (empVar 1 [1, 1] [[0], [5]]) :=
  (C8_empVar_guarded 1 [1, 1] [[0], [5]] (by decide) (by with_unfolding_all decide)).1

lemma expit_logit {p : ℝ} (h0 : 0 < p) (h1 : p < 1) : expit (logit p) = p := by
  rw [logit, expit]
  have h1p : 0 < 1 - p := by linarith
  have hdiv : 0 < p / (1 - p) := div_pos h0 h1p
  have hexp : Real.exp (-Real.log (p / (1 - p))) = (1 - p) / p := by
    rw [Real.exp_neg, Real.exp_log hdiv, inv_div]
  rw [hexp]
  have hp : p ≠ 0 := ne_of_gt h0
  have hsum : (1 + (1 - p) / p) = 1 / p := by field_simp
  rw [hsum, one_div, inv_inv]

lemma logit_expit (q : ℝ) : logit (expit q) = q := by
  rw [expit, logit]
  have hE : 0 < Real.exp (-q) := Real.exp_pos _
  have hden : 0 < 1 + Real.exp (-q) := by linarith
  have h1 : 1 - (1 + Real.exp (-q))⁻¹ = Real.exp (-q) / (1 + Real.exp (-q)) := by
    field_simp
  rw [h1]
  have h2 : (1 + Real.exp (-q))⁻¹ / (Real.exp (-q) / (1 + Real.exp (-q))) =
      (Real.exp (-q))⁻¹ := by
    field_simp
  rw [h2, ← Real.exp_neg, neg_neg, Real.log_exp]

lemma rect_scalar_model_search {a b p : ℝ} (hap : a < p) (hpb : p < b) :
    (b - a) * expit (Real.log (p - a) - Real.log (b - p)) + a = p := by
  have h1 : 0 < p - a := by linarith
  have h2 : 0 < b - p := by linarith
  rw [expit]
  have hexp : Real.exp (-(Real.log (p - a) - Real.log (b - p))) = (b - p) / (p - a) := by
    rw [neg_sub, Real.exp_sub, Real.exp_log h2, Real.exp_log h1]
  rw [hexp]
  have hsum : (1 + (b - p) / (p - a)) = (b - a) / (p - a) := by
    field_simp
  rw [hsum, inv_div]
  have hba : b - a ≠ 0 := by linarith
  field_simp

lemma rect_scalar_search_model {a b : ℝ} (q : ℝ) (hab : a < b) :
    Real.log ((b - a) * expit q + a - a) - Real.log (b - ((b - a) * expit q + a)) = q := by
  have hba : 0 < b - a := by linarith
  have hE : 0 < Real.exp (-q) := Real.exp_pos _
  have hden : 0 < 1 + Real.exp (-q) := by linarith
  rw [expit]
  have e1 : (b - a) * (1 + Real.exp (-q))⁻¹ + a - a = (b - a) / (1 + Real.exp (-q)) := by
    field_simp
    ring
  have e2 : b - ((b - a) * (1 + Real.exp (-q))⁻¹ + a) =
      (b - a) * Real.exp (-q) / (1 + Real.exp (-q)) := by
    field_simp
    ring
  rw [e1, e2]
  have hX : (b - a) / (1 + Real.exp (-q)) ≠ 0 := by positivity
  have hY : (b - a) * Real.exp (-q) / (1 + Real.exp (-q)) ≠ 0 := by positivity
  rw [← Real.log_div hX hY]
  have e3 : (b - a) / (1 + Real.exp (-q)) /
      ((b - a) * Real.exp (-q) / (1 + Real.exp (-q))) = (Real.exp (-q))⁻¹ := by
    field_simp
  rw [e3, ← Real.exp_neg, neg_neg, Real.log_exp]

lemma map_roundtrip {f g : ℝ → ℝ} {P : ℝ → Prop} (h : ∀ x, P x → g (f x) = x) :
    ∀ l : List ℝ, (∀ x ∈ l, P x) → (l.map f).map g = l
  | [], _ => rfl
  | a :: l, hl => by
    simp only [List.map_cons, List.cons.injEq]
    exact ⟨h a (hl a (by simp)), map_roundtrip h l (fun x hx => hl x (by simp [hx]))⟩

lemma zipWith_roundtrip {β : Type} {f g : β → ℝ → ℝ} {P : β → ℝ → Prop}
    (h : ∀ b x, P b x → g b (f b x) = x) :
    ∀ {bs : List β} {l : List ℝ}, List.Forall₂ P bs l →
      List.zipWith g bs (List.zipWith f bs l) = l := by
  intro bs l hf
  induction hf with
  | nil => rfl
  | @cons b x bs l hpb htail ih =>
    simp only [List.zipWith_cons_cons, List.cons.injEq]
    exact ⟨h b x hpb, ih⟩

/-- C9: each concrete transformation (Identity, Log, Logit,
RectangularBoundaries, Scaling) has `to_model` and `to_search` mutually
inverse on its valid domain (exactly, in real arithmetic): for model-space
`p` in the domain, `to_model (to_search p) = p`, and for search-space `q`,
`to_search (to_model q) = q`. -/
theorem C9_round_trips :
    (∀ p : List ℝ, identityToModel (identityToSearch p) = p) ∧
    (∀ q : List ℝ, identityToSearch (identityToModel q) = q) ∧
    (∀ p : List ℝ, (∀ x ∈ p, 0 < x) → logTransToModel (logTransToSearch p) = p) ∧
    (∀ q : List ℝ, logTransToSearch (logTransToModel q) = q) ∧
    (∀ p : List ℝ, (∀ x ∈ p, 0 < x ∧ x < 1) →
      logitTransToModel (logitTransToSearch p) = p) ∧
    (∀ q : List ℝ, logitTransToSearch (logitTransToModel q) = q) ∧
    (∀ a b p : List ℝ,
      List.Forall₂ (fun ab x => ab.1 < x ∧ x < ab.2) (a.zip b) p →
      rectToModel a b (rectToSearch a b p) = p) ∧
    (∀ a b q : List ℝ,
      List.Forall₂ (fun ab _ => ab.1 < ab.2) (a.zip b) q →
      rectToSearch a b (rectToModel a b q) = q) ∧
    (∀ s p : List ℝ, List.Forall₂ (fun si _ => si ≠ 0) s p →
      scalingToModel s (scalingToSearch s p) = p) ∧
    (∀ s q : List ℝ, List.Forall₂ (fun si _ => si ≠ 0) s q →
      scalingToSearch s (scalingToModel s q) = q) := by
  refine ⟨fun p => rfl, fun q => rfl, ?_, ?_, ?_, ?_, ?_, ?_, ?_, ?_⟩
  · intro p hp
    exact map_roundtrip (fun x hx => Real.exp_log hx) p hp
  · intro q
    exact map_roundtrip (P := fun _ => True) (fun x _ => Real.log_exp x) q (fun x _ => trivial)
  · intro p hp
    exact map_roundtrip (fun x hx => expit_logit hx.1 hx.2) p hp
  · intro q
    exact map_roundtrip (P := fun _ => True) (fun x _ => logit_expit x) q (fun x _ => trivial)
  · intro a b p hp
    exact zipWith_roundtrip (fun ab x hx => rect_scalar_model_search (a := ab.1) (b := ab.2) hx.1 hx.2) hp
  · intro a b q hq
    exact zipWith_roundtrip (fun ab x hx => rect_scalar_search_model x hx) hq
  · intro s p hp
    refine zipWith_roundtrip (fun si x hx => ?_) hp
    field_simp
  · intro s q hq
    refine zipWith_roundtrip (fun si x hx => ?_) hq
    field_simp

/-- Witness for C9: concrete round trips at interior points. -/
theorem C9_witness :
    logTransToModel (logTransToSearch [1]) = [1] ∧
    logitTransToModel (logitTransToSearch [1 / 2]) = [1 / 2] ∧
    rectToModel [0] [2] (rectToSearch [0] [2] [1]) = [1] ∧
    scalingToModel [2] (scalingToSearch [2] [3]) = [3] :=
  ⟨C9_round_trips.2.2.1 [1] (by norm_num),
    C9_round_trips.2.2.2.2.1 [1 / 2] (by norm_num),
    C9_round_trips.2.2.2.2.2.2.1 [0] [2] [1]
      (List.Forall₂.cons (by norm_num) List.Forall₂.nil),
    C9_round_trips.2.2.2.2.2.2.2.2.1 [2] [3]
      (List.Forall₂.cons (by norm_num) List.Forall₂.nil)⟩
